import Mathlib

/-!
Shallow embedding of the `mxprops` property store (`src/mxprops/mxprops.h`).

The C++ core is a flat `std::map<std::string, Record>` (lexicographically
ordered by path string) accessed through view objects carrying a `selfPath`
prefix.  We model the map as an association list kept sorted by the same
lexicographic order, typed codecs (`boost::property_tree` translators) as an
explicit encode/decode pair, and the exception thrown by the no-default
`get<T>` as an `Except` value.
-/

namespace Mxprops

/-- Modelled from the spec: `PathPropData` comes from `mxprops/pathprop.h`,
which is not part of the sources; the spec describes it only as "opaque
provenance data ... attached when set via the metadata-carrying setter;
otherwise a default/empty value".  We model it as an opaque origin string
with an empty default. -/
structure PathPropData where
  origin : String := ""
deriving DecidableEq, Repr

/-- A typed codec: the `translator_between<std::string, TData>` pair used by
`Record.get_as` / `Record.set_as` (`put_value` / `get_value`, both fallible). -/
structure Codec (T : Type) where
  encode : T → Option String
  decode : String → Option T

/-- `PTree::Record`: a canonical string value, a defined flag and origin
metadata.  The default constructor leaves `defined = false`. -/
structure Record where
  value : String := ""
  defined : Bool := false
  pathData : PathPropData := {}
deriving DecidableEq, Repr

/-- `Record::setValue(v)`: store the string and flip `defined`. -/
def Record.setValue (r : Record) (v : String) : Record :=
  { r with value := v, defined := true }

/-- `Record::setValue(v, pd)`: `setValue(v)` plus overwriting the metadata. -/
def Record.setValueWithData (r : Record) (v : String) (pd : PathPropData) : Record :=
  { r.setValue v with pathData := pd }

/-- `Record::get_as<TData>()`: empty when not defined, otherwise the decode of
the stored string (which may itself be empty on decode failure). -/
def Record.get_as {T : Type} (c : Codec T) (r : Record) : Option T :=
  if r.defined then c.decode r.value else none

/-- `Record::set_as<TData>(d)`: encode; `defined` becomes whether encoding
succeeded, and the stored string becomes the encoding or the `"<invalid>"`
placeholder. -/
def Record.set_as {T : Type} (c : Codec T) (d : T) (r : Record) : Record :=
  let strTranslated := c.encode d
  { r with defined := strTranslated.isSome
         , value := strTranslated.getD "<invalid>" }

/-- `Record::undefine()`: clear the defined flag only. -/
def Record.undefine (r : Record) : Record :=
  { r with defined := false }

/-- Lexicographic (byte-wise) comparison on character lists: the order
`std::less<std::string>` gives the `std::map` keys. -/
def charListLt : List Char → List Char → Bool
  | [], [] => false
  | [], _ :: _ => true
  | _ :: _, [] => false
  | a :: as, b :: bs => if a < b then true else if b < a then false else charListLt as bs

/-- `charListPfx p s`: `p` is a prefix of `s` (the `boost::starts_with` test). -/
def charListPfx : List Char → List Char → Bool
  | [], _ => true
  | _ :: _, [] => false
  | a :: as, b :: bs => a = b && charListPfx as bs

/-- Lexicographic order on paths, as `std::map<std::string, _>` orders keys. -/
def pathLt (a b : String) : Bool :=
  charListLt a.data b.data

/-- `boost::starts_with(s, pre)`. -/
def strStartsWith (s pre : String) : Bool :=
  charListPfx pre.data s.data

/-- `std::string::substr(n)`: drop the first `n` characters. -/
def substrFrom (s : String) (n : Nat) : String :=
  ⟨s.data.drop n⟩

/-- `PTree::joinPaths`. -/
def joinPaths (p1 p2 : String) : String :=
  if p1 = "" then p2
  else if p2 = "" then p1
  else p1 ++ "." ++ p2

/-- `PTree::isSimplePath`. -/
def isSimplePath (p : String) : Bool :=
  p ≠ "" && p.data.all (fun c => c ≠ '.')

/-- `PTree::splitFirst`: the segment before the first `.` (the whole string
when there is none). -/
def splitFirst (p : String) : String :=
  ⟨p.data.takeWhile (fun c => c ≠ '.')⟩

/-- The store's table `propmap_t = std::map<std::string, Record>`, modelled as
an association list kept sorted by `pathLt` on the keys. -/
abbrev PTree := List (String × Record)

/-- The `std::map` key invariant: keys strictly ascending in `pathLt`. -/
def PTree.Ordered (t : PTree) : Prop :=
  List.Pairwise (fun a b : String × Record => pathLt a.1 b.1 = true) t

instance (t : PTree) : Decidable t.Ordered := by
  unfold PTree.Ordered
  infer_instance

/-- Pure lookup in the table (no materialization). -/
def PTree.find? : PTree → String → Option Record
  | [], _ => none
  | (k, r) :: rest, p => if p = k then some r else PTree.find? rest p

/-- The record `std::map::operator[]` would hand back: the stored record, or a
default-constructed one when the path was never touched. -/
def PTree.findD (t : PTree) (p : String) : Record :=
  (t.find? p).getD {}

/-- `propMap[path]` seen as a state update: apply `f` to the record at `p`,
materializing a default record first when `p` is absent, keeping the list
sorted (the sorted-insert counterpart of `std::map::operator[]`). -/
def PTree.modifyRec : PTree → String → (Record → Record) → PTree
  | [], p, f => [(p, f {})]
  | (k, r) :: rest, p, f =>
    if pathLt p k then (p, f {}) :: (k, r) :: rest
    else if p = k then (k, f r) :: rest
    else (k, r) :: PTree.modifyRec rest p f

/-- `PTree::getRecord(path)` as a state effect: materialize the record at `p`
(the returned reference is `findD`). -/
def PTree.touch (t : PTree) (p : String) : PTree :=
  t.modifyRec p id

/-- `mxprops::PropsError`: carries the offending property name and the
message prefix it was constructed with (`what()` is `msg ++ propertyName`). -/
structure PropsError where
  propertyName : String
  msg : String
deriving DecidableEq, Repr

/-- `ConstRef::getOptional<TData>(path, &getDefined)` of a view rooted at
`selfPath`: returns the decoded optional, the defined flag reported through
the out-parameter, and the table after the lazy materialization performed by
`PTree::getRecord`. -/
def getOptional {T : Type} (c : Codec T) (t : PTree) (selfPath path : String) :
    Option T × Bool × PTree :=
  let jp := joinPaths selfPath path
  let r := t.findD jp
  (r.get_as c, r.defined, t.touch jp)

/-- `ConstRef::get<TData>(path, defaultValue)`. -/
def getWithDefault {T : Type} (c : Codec T) (t : PTree) (selfPath path : String)
    (defaultValue : T) : T × PTree :=
  let res := getOptional c t selfPath path
  (res.1.getD defaultValue, res.2.2)

/-- The no-default `ConstRef::get<TData>(path)`: throws `PropsError` with
`getSelfPath() + "." + path` and a message chosen by the defined flag when the
optional is empty. -/
def get {T : Type} (c : Codec T) (t : PTree) (selfPath path : String) :
    Except PropsError T × PTree :=
  let res := getOptional c t selfPath path
  match res.1 with
  | some v => (Except.ok v, res.2.2)
  | none =>
    (Except.error
      ⟨selfPath ++ "." ++ path, if res.2.1 then "Bad format " else "Undefined property: "⟩,
     res.2.2)

/-- `Ref::set<TData>(path, value)`: `set_as` on the record materialized at the
joined path. -/
def set {T : Type} (c : Codec T) (t : PTree) (selfPath path : String) (v : T) : PTree :=
  t.modifyRec (joinPaths selfPath path) (fun r => r.set_as c v)

/-- `Ref::undefine(path)`: `undefine` on the record materialized at the joined
path. -/
def undefineAt (t : PTree) (selfPath path : String) : PTree :=
  t.modifyRec (joinPaths selfPath path) Record.undefine

/-- `Ref::setRecord(path, r)`: whole-record overwrite. -/
def setRecord (t : PTree) (selfPath path : String) (r : Record) : PTree :=
  t.modifyRec (joinPaths selfPath path) (fun _ => r)

/-- `ConstRef::listKeysRecursive(result, withUndefined)`.  The C++ starts at
`propMap.lower_bound(selfPath)` (on the sorted table: drop the keys below
`selfPath`) and, for a non-empty `selfPath`, walks while the key still has
`selfPath` as a string prefix, pushing `""` for the entry at `selfPath` itself
and `key.substr(selfPath.size() + 1)` otherwise; for the empty root path it
walks to the end pushing full keys.  Records failing the defined flag are
skipped unless `withUndefined`. -/
def listKeysRecursive (t : PTree) (selfPath : String) (withUndefined : Bool) :
    List String :=
  let fromIt := t.dropWhile (fun e => pathLt e.1 selfPath)
  if selfPath = "" then
    ((fromIt.filter (fun e => withUndefined || e.2.defined)).map (fun e => e.1))
  else
    (((fromIt.takeWhile (fun e => strStartsWith e.1 selfPath)).filter
        (fun e => withUndefined || e.2.defined)).map
      (fun e => if selfPath = e.1 then "" else substrFrom e.1 (selfPath.length + 1)))

/-- The collapsing loop of `ConstRef::listKeys`: `prevKey` starts as the given
string; each key's first dotted segment is pushed only when it differs from
`prevKey`, which is then updated. -/
def dedupLoop : String → List String → List String
  | _, [] => []
  | prevKey, k :: ks =>
    let f := splitFirst k
    if f = prevKey then dedupLoop prevKey ks else f :: dedupLoop f ks

/-- `ConstRef::listKeys(result, withUndefined)`: the recursive listing
collapsed to first segments with `prevKey` seeded by the empty string. -/
def listKeys (t : PTree) (selfPath : String) (withUndefined : Bool) : List String :=
  dedupLoop "" (listKeysRecursive t selfPath withUndefined)

/-- The declarative reading of the recursive key listing: keep the table
entries whose full key has `P` as a *string* prefix (all of them for the root
view) and pass the defined filter, and strip each key relative to `P`. -/
def subtreeKeys (t : PTree) (P : String) (w : Bool) : List String :=
  (t.filter (fun e => strStartsWith e.1 P && (w || e.2.defined))).map
    (fun e => if P = "" then e.1 else if P = e.1 then "" else substrFrom e.1 (P.length + 1))

/-- Plain collapse of consecutive duplicates. -/
def collapseAdj : List String → List String
  | [] => []
  | [x] => [x]
  | x :: y :: xs => if x = y then collapseAdj (y :: xs) else x :: collapseAdj (y :: xs)

/-- Identity codec on strings: encoding and decoding both always succeed. -/
def strCodec : Codec String :=
  ⟨fun s => some s, fun s => some s⟩

/-- A codec whose encoder (and decoder) always fails. -/
def failCodec : Codec Nat :=
  ⟨fun _ => none, fun _ => none⟩

/-- Concrete store holding entries at `"ab"` and `"abc"`: `"abc"` is a
string-prefix sibling, not a dotted descendant, of `"ab"`. -/
def exTableAB : PTree :=
  set strCodec (set strCodec ([] : PTree) "" "ab" "x") "" "abc" "y"

/-- Concrete store holding a single entry at `"ab"`. -/
def exTableAB1 : PTree :=
  set strCodec ([] : PTree) "" "ab" "v"

/-! ### Order facts about the key comparison -/

theorem charListLt_nil_right (l : List Char) : charListLt l [] = false := by
  cases l <;> rfl

theorem charListLt_irrefl (l : List Char) : charListLt l l = false := by
  induction l with
  | nil => rfl
  | cons a as ih => simp [charListLt, ih]

theorem charListLt_trans {a b c : List Char} (hab : charListLt a b = true)
    (hbc : charListLt b c = true) : charListLt a c = true := by
  induction a generalizing b c with
  | nil =>
    cases c with
    | nil =>
      cases b with
      | nil => exact hab
      | cons y ys => simp [charListLt] at hbc
    | cons z zs => rfl
  | cons x xs ih =>
    cases b with
    | nil => simp [charListLt] at hab
    | cons y ys =>
      cases c with
      | nil => simp [charListLt] at hbc
      | cons z zs =>
        simp only [charListLt] at hab hbc ⊢
        rcases lt_trichotomy x y with hxy | hxy | hxy
        · rcases lt_trichotomy y z with hyz | hyz | hyz
          · simp [lt_trans hxy hyz]
          · subst hyz; simp [hxy]
          · simp [hyz, not_lt_of_lt hyz] at hbc
        · subst hxy
          rcases lt_trichotomy x z with hyz | hyz | hyz
          · simp [hyz]
          · subst hyz
            simp [lt_irrefl] at hab hbc ⊢
            exact ih hab hbc
          · simp [hyz, not_lt_of_lt hyz] at hbc
        · simp [hxy, not_lt_of_lt hxy] at hab

theorem charListLt_asymm {a b : List Char} (h : charListLt a b = true) :
    charListLt b a = false := by
  by_contra hcon
  have hba : charListLt b a = true := by
    cases hb : charListLt b a with
    | false => exact absurd hb hcon
    | true => rfl
  have := charListLt_trans h hba
  rw [charListLt_irrefl] at this
  exact Bool.false_ne_true this

theorem charListLt_total {a b : List Char} (hne : a ≠ b)
    (h : charListLt a b = false) : charListLt b a = true := by
  induction a generalizing b with
  | nil =>
    cases b with
    | nil => exact absurd rfl hne
    | cons y ys => simp [charListLt] at h
  | cons x xs ih =>
    cases b with
    | nil => rfl
    | cons y ys =>
      simp only [charListLt] at h ⊢
      rcases lt_trichotomy x y with hxy | hxy | hxy
      · simp [hxy] at h
      · subst hxy
        simp only [lt_irrefl, if_false] at h ⊢
        have hne' : xs ≠ ys := by
          intro hcon
          exact hne (by rw [hcon])
        exact ih hne' h
      · simp [hxy, not_lt_of_lt hxy]

theorem charListPfx_refl (l : List Char) : charListPfx l l = true := by
  induction l with
  | nil => rfl
  | cons a as ih => simp [charListPfx, ih]

theorem charListPfx_append (l m : List Char) : charListPfx l (l ++ m) = true := by
  induction l with
  | nil => rfl
  | cons a as ih => simp [charListPfx, ih]

/-- A string with prefix `p` is never strictly below `p`. -/
theorem not_lt_of_pfx {p k : List Char} (h : charListPfx p k = true) :
    charListLt k p = false := by
  induction p generalizing k with
  | nil => exact charListLt_nil_right k
  | cons a as ih =>
    cases k with
    | nil => simp [charListPfx] at h
    | cons b bs =>
      simp only [charListPfx, Bool.and_eq_true, decide_eq_true_eq] at h
      obtain ⟨rfl, h2⟩ := h
      simp [charListLt, lt_irrefl, ih h2]

/-- A key at or above `p` that does not have `p` as a prefix is strictly above
every string that does have `p` as a prefix. -/
theorem lt_of_pfx_of_not_pfx {p k m : List Char} (hk : charListLt k p = false)
    (hnp : charListPfx p k = false) (hm : charListPfx p m = true) :
    charListLt m k = true := by
  induction p generalizing k m with
  | nil => simp [charListPfx] at hnp
  | cons a as ih =>
    cases k with
    | nil => simp [charListLt] at hk
    | cons b bs =>
      cases m with
      | nil => simp [charListPfx] at hm
      | cons c cs =>
        simp only [charListPfx, Bool.and_eq_true, decide_eq_true_eq] at hm
        obtain ⟨h1, hm2⟩ := hm
        subst h1
        simp only [charListLt] at hk ⊢
        have hba : ¬ b < a := by
          intro hcon
          rw [if_pos hcon] at hk
          exact absurd hk (by decide)
        by_cases hab : a < b
        · rw [if_pos hab]
        · have hba' : a = b := le_antisymm (not_lt.mp hba) (not_lt.mp hab)
          subst hba'
          rw [if_neg hab, if_neg hab] at hk ⊢
          have hnp' : charListPfx as bs = false := by
            simpa [charListPfx] using hnp
          exact ih hk hnp' hm2

theorem pathLt_irrefl (s : String) : pathLt s s = false :=
  charListLt_irrefl s.data

theorem pathLt_trans {a b c : String} (hab : pathLt a b = true)
    (hbc : pathLt b c = true) : pathLt a c = true :=
  charListLt_trans hab hbc

theorem pathLt_total {a b : String} (hne : a ≠ b) (h : pathLt a b = false) :
    pathLt b a = true := by
  refine charListLt_total (fun hc => hne ?_) h
  cases a with
  | mk da =>
    cases b with
    | mk db => exact congrArg String.mk hc

/-! ### Lookup / sorted-insert lemmas for the table -/

theorem find?_cons_eq (k : String) (r : Record) (rest : PTree) :
    PTree.find? ((k, r) :: rest) k = some r := by
  simp [PTree.find?]

theorem find?_cons_ne (k : String) (r : Record) (rest : PTree) {p : String}
    (h : p ≠ k) : PTree.find? ((k, r) :: rest) p = PTree.find? rest p := by
  simp [PTree.find?, h]

theorem findD_cons_eq (k : String) (r : Record) (rest : PTree) :
    PTree.findD ((k, r) :: rest) k = r := by
  simp [PTree.findD, find?_cons_eq]

theorem findD_cons_ne (k : String) (r : Record) (rest : PTree) {p : String}
    (h : p ≠ k) : PTree.findD ((k, r) :: rest) p = PTree.findD rest p := by
  simp [PTree.findD, find?_cons_ne k r rest h]

theorem find?_eq_none_of {t : PTree} {p : String} (h : ∀ e ∈ t, p ≠ e.1) :
    PTree.find? t p = none := by
  induction t with
  | nil => rfl
  | cons e rest ih =>
    obtain ⟨k, r⟩ := e
    have hpk : p ≠ k := h (k, r) (List.mem_cons_self _ _)
    rw [find?_cons_ne k r rest hpk]
    exact ih (fun e he => h e (List.mem_cons_of_mem _ he))

theorem mem_of_find? {t : PTree} {p : String} {r : Record}
    (h : PTree.find? t p = some r) : (p, r) ∈ t := by
  induction t with
  | nil => simp [PTree.find?] at h
  | cons e rest ih =>
    obtain ⟨k, s⟩ := e
    by_cases hp : p = k
    · subst hp
      rw [find?_cons_eq] at h
      cases h
      exact List.mem_cons_self _ _
    · rw [find?_cons_ne k s rest hp] at h
      exact List.mem_cons_of_mem _ (ih h)

theorem keys_modifyRec {t : PTree} {p : String} {f : Record → Record} :
    ∀ e ∈ PTree.modifyRec t p f, e.1 = p ∨ e.1 ∈ t.map Prod.fst := by
  induction t with
  | nil =>
    intro e he
    simp only [PTree.modifyRec, List.mem_singleton] at he
    subst he
    exact Or.inl rfl
  | cons hd rest ih =>
    obtain ⟨k, r⟩ := hd
    intro e he
    simp only [PTree.modifyRec] at he
    by_cases h1 : pathLt p k = true
    · rw [if_pos h1] at he
      simp only [List.mem_cons] at he
      rcases he with he | he | he
      · subst he; exact Or.inl rfl
      · subst he; exact Or.inr (by simp)
      · exact Or.inr (by simp [List.mem_map_of_mem Prod.fst he])
    · rw [if_neg h1] at he
      by_cases h2 : p = k
      · rw [if_pos h2] at he
        simp only [List.mem_cons] at he
        rcases he with he | he
        · subst he; subst h2; exact Or.inl rfl
        · exact Or.inr (by simp [List.mem_map_of_mem Prod.fst he])
      · rw [if_neg h2] at he
        simp only [List.mem_cons] at he
        rcases he with he | he
        · subst he; exact Or.inr (by simp)
        · rcases ih e he with h | h
          · exact Or.inl h
          · exact Or.inr (by simp [h])

/-- `modifyRec` preserves the sortedness invariant of the table. -/
theorem Ordered.modifyRec {t : PTree} (ht : t.Ordered) (p : String)
    (f : Record → Record) : (PTree.modifyRec t p f).Ordered := by
  induction t with
  | nil =>
    simp [PTree.modifyRec, PTree.Ordered]
  | cons hd rest ih =>
    obtain ⟨k, r⟩ := hd
    have htl : PTree.Ordered rest := (List.pairwise_cons.mp ht).2
    have hhd : ∀ e ∈ rest, pathLt k e.1 = true :=
      fun e he => (List.pairwise_cons.mp ht).1 e he
    simp only [PTree.modifyRec]
    by_cases h1 : pathLt p k = true
    · rw [if_pos h1]
      refine List.pairwise_cons.mpr ⟨?_, ht⟩
      intro e he
      simp only [List.mem_cons] at he
      rcases he with he | he
      · subst he; exact h1
      · exact pathLt_trans h1 (hhd e he)
    · rw [if_neg h1]
      by_cases h2 : p = k
      · rw [if_pos h2]
        exact List.pairwise_cons.mpr ⟨fun e he => hhd e he, htl⟩
      · rw [if_neg h2]
        refine List.pairwise_cons.mpr ⟨?_, ih htl⟩
        intro e he
        rcases keys_modifyRec e he with h | h
        · rw [h]
          exact pathLt_total h2 (by simpa using h1)
        · obtain ⟨e', he', hk⟩ := List.mem_map.mp h
          rw [← hk]
          exact hhd e' he'

/-- After `modifyRec p f`, the record found at `p` is `f` of the record
`operator[]` would have handed out beforehand. -/
theorem find?_modifyRec_self {t : PTree} (ht : t.Ordered) (p : String)
    (f : Record → Record) :
    PTree.find? (PTree.modifyRec t p f) p = some (f (PTree.findD t p)) := by
  induction t with
  | nil => simp [PTree.modifyRec, PTree.find?, PTree.findD]
  | cons hd rest ih =>
    obtain ⟨k, r⟩ := hd
    have htl : PTree.Ordered rest := (List.pairwise_cons.mp ht).2
    have hhd : ∀ e ∈ rest, pathLt k e.1 = true :=
      fun e he => (List.pairwise_cons.mp ht).1 e he
    simp only [PTree.modifyRec]
    by_cases h1 : pathLt p k = true
    · rw [if_pos h1]
      have hpk : p ≠ k := by
        intro hc
        subst hc
        rw [pathLt_irrefl] at h1
        exact absurd h1 (by decide)
      have hnone : PTree.find? rest p = none := by
        refine find?_eq_none_of ?_
        intro e he hc
        subst hc
        have h2 := pathLt_trans h1 (hhd e he)
        rw [pathLt_irrefl] at h2
        exact absurd h2 (by decide)
      rw [find?_cons_eq, findD_cons_ne k r rest hpk]
      simp [PTree.findD, hnone]
    · rw [if_neg h1]
      by_cases h2 : p = k
      · rw [if_pos h2]
        subst h2
        rw [find?_cons_eq, findD_cons_eq]
      · rw [if_neg h2]
        rw [find?_cons_ne k r _ h2, findD_cons_ne k r rest h2]
        exact ih htl

/-- `modifyRec` at `p` leaves lookups at any other key unchanged. -/
theorem find?_modifyRec_ne (t : PTree) (p : String) (f : Record → Record)
    {q : String} (hq : q ≠ p) :
    PTree.find? (PTree.modifyRec t p f) q = PTree.find? t q := by
  induction t with
  | nil => simp [PTree.modifyRec, PTree.find?, hq]
  | cons hd rest ih =>
    obtain ⟨k, r⟩ := hd
    simp only [PTree.modifyRec]
    by_cases h1 : pathLt p k = true
    · rw [if_pos h1]
      rw [find?_cons_ne _ _ _ hq]
    · rw [if_neg h1]
      by_cases h2 : p = k
      · rw [if_pos h2]
        subst h2
        rw [find?_cons_ne _ _ _ hq, find?_cons_ne _ _ _ hq]
      · rw [if_neg h2]
        by_cases h3 : q = k
        · subst h3
          rw [find?_cons_eq, find?_cons_eq]
        · rw [find?_cons_ne _ _ _ h3, find?_cons_ne _ _ _ h3]
          exact ih

/-! ### The prefix scan over the sorted table is a plain prefix filter -/

theorem dropWhile_all_false {α : Type} (q : α → Bool) (l : List α)
    (h : ∀ e ∈ l, q e = false) : l.dropWhile q = l := by
  cases l with
  | nil => rfl
  | cons x xs =>
    rw [List.dropWhile_cons, if_neg]
    rw [h x (List.mem_cons_self _ _)]
    exact Bool.false_ne_true

theorem takeWhile_dropWhile_eq_filter (p : String) (t : PTree) (ht : t.Ordered) :
    (t.dropWhile (fun e => pathLt e.1 p)).takeWhile (fun e => strStartsWith e.1 p)
      = t.filter (fun e => strStartsWith e.1 p) := by
  induction t with
  | nil => rfl
  | cons hd rest ih =>
    obtain ⟨k, r⟩ := hd
    have htl : PTree.Ordered rest := (List.pairwise_cons.mp ht).2
    have hhd : ∀ e ∈ rest, pathLt k e.1 = true :=
      fun e he => (List.pairwise_cons.mp ht).1 e he
    by_cases hlt : pathLt (k, r).1 p = true
    · have hpfx : strStartsWith (k, r).1 p = false := by
        cases hc : strStartsWith (k, r).1 p with
        | false => rfl
        | true =>
          have := not_lt_of_pfx hc
          rw [pathLt] at hlt
          rw [this] at hlt
          exact absurd hlt (by decide)
      rw [List.dropWhile_cons, if_pos hlt, List.filter_cons, hpfx]
      simp [ih htl]
    · rw [List.dropWhile_cons, if_neg (by simpa using hlt), List.filter_cons]
      have hrest_nolt : ∀ e ∈ rest, pathLt e.1 p = false := by
        intro e he
        cases hc : pathLt e.1 p with
        | false => rfl
        | true =>
          have h2 := pathLt_trans (hhd e he) hc
          have h3 : pathLt (k, r).1 p = true := h2
          exact absurd h3 hlt
      by_cases hpfx : strStartsWith (k, r).1 p = true
      · rw [List.takeWhile_cons, if_pos hpfx, hpfx]
        have hdw : rest.dropWhile (fun e => pathLt e.1 p) = rest :=
          dropWhile_all_false _ rest hrest_nolt
        have := ih htl
        rw [hdw] at this
        simp [this]
      · have hpfx' : strStartsWith (k, r).1 p = false := by
          simpa using hpfx
        rw [List.takeWhile_cons, if_neg (by simpa using hpfx), hpfx']
        have : rest.filter (fun e => strStartsWith e.1 p) = [] := by
          rw [List.filter_eq_nil_iff]
          intro e he hc
          have hmk : pathLt e.1 k = true := by
            have hk : charListLt k.data p.data = false := by
              cases hx : charListLt k.data p.data with
              | false => rfl
              | true => exact absurd (show pathLt (k, r).1 p = true from hx) hlt
            have hnp : charListPfx p.data k.data = false := by
              simpa [strStartsWith] using hpfx'
            exact lt_of_pfx_of_not_pfx hk hnp (by simpa [strStartsWith] using hc)
          have := pathLt_trans (hhd e he) hmk
          rw [pathLt_irrefl] at this
          exact absurd this (by decide)
        rw [this]
        simp

theorem strStartsWith_empty (s : String) : strStartsWith s "" = true := by
  rfl

theorem joinPaths_empty_left (p : String) : joinPaths "" p = p := by
  rw [joinPaths, if_pos rfl]

theorem joinPaths_empty_right (p : String) : joinPaths p "" = p := by
  by_cases h : p = ""
  · subst h
    rw [joinPaths, if_pos rfl]
  · rw [joinPaths, if_neg h, if_pos rfl]

theorem joinPaths_ne {a b : String} (ha : a ≠ "") (hb : b ≠ "") :
    joinPaths a b = a ++ "." ++ b := by
  rw [joinPaths, if_neg ha, if_neg hb]

theorem lkr_eq_subtreeKeys (t : PTree) (P : String) (w : Bool) (ht : t.Ordered) :
    listKeysRecursive t P w = subtreeKeys t P w := by
  by_cases hP : P = ""
  · subst hP
    rw [listKeysRecursive, subtreeKeys]
    simp only [if_pos rfl]
    have hdw : t.dropWhile (fun e => pathLt e.1 "") = t := by
      refine dropWhile_all_false _ t ?_
      intro e _
      exact charListLt_nil_right e.1.data
    rw [hdw]
    have hfil : t.filter (fun e => w || e.2.defined)
        = t.filter (fun e => strStartsWith e.1 "" && (w || e.2.defined)) := by
      refine List.filter_congr ?_
      intro e _
      rw [strStartsWith_empty, Bool.true_and]
    rw [hfil]
    refine List.map_congr_left ?_
    intro e _
    simp
  · rw [listKeysRecursive, subtreeKeys]
    simp only [if_neg hP]
    rw [takeWhile_dropWhile_eq_filter P t ht, List.filter_filter]
    have hfil : t.filter (fun e => strStartsWith e.1 P && (w || e.2.defined))
        = t.filter (fun e => (w || e.2.defined) && strStartsWith e.1 P) := by
      refine List.filter_congr ?_
      intro e _
      rw [Bool.and_comm]
    rw [hfil]

/-- Any key reachable as `joinPaths sp p` that is present in the table shows up
as `p` in the recursive listing of the view at `sp` with `withUndefined`. -/
theorem mem_listKeysRecursive_of_find? {t : PTree} {sp p : String} {r : Record}
    (ht : t.Ordered) (hf : PTree.find? t (joinPaths sp p) = some r) :
    p ∈ listKeysRecursive t sp true := by
  rw [lkr_eq_subtreeKeys t sp true ht, subtreeKeys]
  have hmem : (joinPaths sp p, r) ∈ t := mem_of_find? hf
  have hpfx : strStartsWith (joinPaths sp p) sp = true := by
    by_cases hsp : sp = ""
    · subst hsp; exact strStartsWith_empty _
    · by_cases hp : p = ""
      · subst hp
        rw [joinPaths_empty_right]
        exact charListPfx_refl sp.data
      · rw [joinPaths_ne hsp hp, strStartsWith]
        rw [String.data_append, String.data_append]
        rw [List.append_assoc]
        exact charListPfx_append sp.data _
  refine List.mem_map.mpr ⟨(joinPaths sp p, r), List.mem_filter.mpr ⟨hmem, ?_⟩, ?_⟩
  · rw [hpfx]
    simp
  · by_cases hsp : sp = ""
    · subst hsp
      rw [if_pos rfl, joinPaths_empty_left]
    · rw [if_neg hsp]
      by_cases hp : p = ""
      · subst hp
        rw [joinPaths_empty_right, if_pos rfl]
      · have hdata : (joinPaths sp p).data = (sp.data ++ ['.']) ++ p.data := by
          rw [joinPaths_ne hsp hp, String.data_append, String.data_append]
        have hne : sp ≠ joinPaths sp p := by
          intro hc
          have h2 : sp.data.length = ((sp.data ++ ['.']) ++ p.data).length := by
            rw [← hdata, ← hc]
          rw [List.length_append, List.length_append] at h2
          simp only [List.length_singleton] at h2
          omega
        rw [if_neg hne, substrFrom, hdata]
        have hlen : (sp.data ++ ['.']).length = sp.length + 1 := by
          rw [List.length_append]
          rfl
        rw [← hlen, List.drop_left]

/-! ### The first-segment collapse of `listKeys` -/

theorem collapseAdj_cons (f : String) (m : List String) :
    collapseAdj (f :: m) = f :: collapseAdj (m.dropWhile (fun x => x == f)) := by
  induction m with
  | nil => rfl
  | cons y ys ih =>
    by_cases hy : y = f
    · subst hy
      rw [collapseAdj, if_pos rfl, ih, List.dropWhile_cons, if_pos (by simp)]
    · rw [collapseAdj, if_neg (fun hc => hy hc.symm), List.dropWhile_cons,
        if_neg (by simp [hy])]

theorem dedupLoop_eq_collapseAdj (prev : String) (l : List String) :
    dedupLoop prev l
      = collapseAdj ((l.map splitFirst).dropWhile (fun x => x == prev)) := by
  induction l generalizing prev with
  | nil => rfl
  | cons k ks ih =>
    rw [dedupLoop, List.map_cons, List.dropWhile_cons]
    by_cases hf : splitFirst k = prev
    · rw [if_pos hf, if_pos (by simp [hf]), ih prev]
    · rw [if_neg hf, if_neg (by simp [hf]), collapseAdj_cons, ih (splitFirst k)]

/-! ### Claims -/

/-- C7: `joinPaths` identities — `join(a,"") = a`, `join("",b) = b`, and for
non-empty `a`, `b`, `join(a,b) = a ++ "." ++ b`, so joining with an empty side
returns the other side unchanged. -/
theorem joinPaths_identities :
    (∀ a : String, joinPaths a "" = a) ∧
    (∀ b : String, joinPaths "" b = b) ∧
    (∀ a b : String, a ≠ "" → b ≠ "" → joinPaths a b = a ++ "." ++ b) :=
  ⟨joinPaths_empty_right, joinPaths_empty_left, fun _ _ ha hb => joinPaths_ne ha hb⟩

/-- Witness for C7 at the concrete paths `"a"`, `"b"`. -/
theorem joinPaths_identities_w :
    ("a" : String) ≠ "" ∧ ("b" : String) ≠ "" ∧
    joinPaths "a" "b" = "a" ++ "." ++ "b" ∧ joinPaths "a" "" = "a" ∧ joinPaths "" "b" = "b" :=
  ⟨by decide, by decide,
   joinPaths_identities.2.2 "a" "b" (by decide) (by decide),
   joinPaths_identities.1 "a", joinPaths_identities.2.1 "b"⟩

/-- C9: when the codec fails to encode, `set_as` overwrites the record with
the `"<invalid>"` placeholder and clears the defined flag, whatever the prior
state: the previously stored string is lost, the metadata is kept, and the
record no longer reads as defined (every typed read returns empty). -/
theorem set_as_encode_fail_record {T T' : Type} (c : Codec T) (c' : Codec T')
    (v : T) (r : Record) (h : c.encode v = none) :
    (r.set_as c v).defined = false ∧
    (r.set_as c v).value = "<invalid>" ∧
    (r.set_as c v).pathData = r.pathData ∧
    (r.set_as c v).get_as c' = none := by
  simp [Record.set_as, Record.get_as, h]

/-- Witness for C9 on a previously defined record holding `"5"`. -/
theorem set_as_encode_fail_record_w :
    ((Record.setValue {} "5").set_as failCodec 0).defined = false ∧
    ((Record.setValue {} "5").set_as failCodec 0).value = "<invalid>" ∧
    ((Record.setValue {} "5").set_as failCodec 0).get_as strCodec = none :=
  ⟨(set_as_encode_fail_record failCodec strCodec 0 (Record.setValue {} "5") rfl).1,
   (set_as_encode_fail_record failCodec strCodec 0 (Record.setValue {} "5") rfl).2.1,
   (set_as_encode_fail_record failCodec strCodec 0 (Record.setValue {} "5") rfl).2.2.2⟩

/-- C1 counterexample: after an encode failure the record is NOT left defined
— `set_as` (and `set` through it) clears the defined flag, refuting
"leaves the record defined (defined == true)". -/
theorem set_encode_fail_not_defined_cex :
    ¬ ((Record.set_as failCodec 0 ({} : Record)).defined = true) ∧
    ¬ ((PTree.findD (set failCodec ([] : PTree) "" "x" 0) "x").defined = true) := by
  constructor <;> decide

/-- C1 (amended): when the codec fails to encode, `set<T>(path, v)` leaves the
record at the joined path UNdefined (`defined = false`) while storing the
sentinel placeholder string `"<invalid>"` as its value: the failed write
overwrites the stored string but the record reads as never set. -/
theorem set_encode_fail_placeholder {T : Type} (c : Codec T) (t : PTree)
    (sp p v : _) (ht : t.Ordered) (h : c.encode (v : T) = none) :
    (PTree.findD (set c t sp p v) (joinPaths sp p)).defined = false ∧
    (PTree.findD (set c t sp p v) (joinPaths sp p)).value = "<invalid>" := by
  have h1 := find?_modifyRec_self ht (joinPaths sp p) (fun r => r.set_as c v)
  simp only [set, PTree.findD, h1, Option.getD_some]
  simp [Record.set_as, h]

/-- Witness for C1's amended statement on a fresh store. -/
theorem set_encode_fail_placeholder_w :
    (PTree.findD (set failCodec ([] : PTree) "" "x" 0) (joinPaths "" "x")).defined = false ∧
    (PTree.findD (set failCodec ([] : PTree) "" "x" 0) (joinPaths "" "x")).value = "<invalid>" :=
  set_encode_fail_placeholder failCodec ([] : PTree) "" "x" 0 (by decide) rfl

/-- C2 counterexample: at the root view (`selfPath = ""`) the error from the
no-default `get` carries `".x"`, the plain concatenation `selfPath + "." +
path`, not the joined path `"x"` — refuting "carries the fully-qualified path
(the view's selfPath joined with p)". -/
theorem get_error_path_cex :
    (get strCodec ([] : PTree) "" "x").1
      = Except.error ⟨".x", "Undefined property: "⟩ ∧
    joinPaths "" "x" = "x" ∧ (".x" : String) ≠ "x" :=
  ⟨rfl, rfl, by decide⟩

/-- C2 (amended): the no-default `get<T>(p)` fails exactly when the record at
the joined path is undefined or its stored string fails to decode, with the
message distinguishing the two cases; the error's property name is the literal
concatenation `selfPath ++ "." ++ p` (equal to the joined path only when both
sides are non-empty); on success it returns the decoded value. -/
theorem get_error_cases {T : Type} (c : Codec T) (t : PTree) (sp p : String) :
    ((PTree.findD t (joinPaths sp p)).defined = false →
      (get c t sp p).1 = Except.error ⟨sp ++ "." ++ p, "Undefined property: "⟩) ∧
    ((PTree.findD t (joinPaths sp p)).defined = true →
      c.decode (PTree.findD t (joinPaths sp p)).value = none →
      (get c t sp p).1 = Except.error ⟨sp ++ "." ++ p, "Bad format "⟩) ∧
    (∀ v : T, (PTree.findD t (joinPaths sp p)).defined = true →
      c.decode (PTree.findD t (joinPaths sp p)).value = some v →
      (get c t sp p).1 = Except.ok v) := by
  refine ⟨fun hdef => ?_, fun hdef hdec => ?_, fun v hdef hdec => ?_⟩
  · rw [get]
    simp [getOptional, Record.get_as, hdef]
  · rw [get]
    simp [getOptional, Record.get_as, hdef, hdec]
  · rw [get]
    simp [getOptional, Record.get_as, hdef, hdec]

/-- Witness for C2's amended statement: undefined, bad-format and success
cases at concrete stores. -/
theorem get_error_cases_w :
    (get strCodec ([] : PTree) "" "x").1
        = Except.error ⟨"" ++ "." ++ "x", "Undefined property: "⟩ ∧
    (get failCodec (setRecord ([] : PTree) "" "x" (Record.setValue {} "zz")) "" "x").1
        = Except.error ⟨"" ++ "." ++ "x", "Bad format "⟩ ∧
    (get strCodec exTableAB1 "" "ab").1 = Except.ok "v" :=
  ⟨(get_error_cases strCodec ([] : PTree) "" "x").1 (by decide),
   (get_error_cases failCodec (setRecord ([] : PTree) "" "x" (Record.setValue {} "zz")) "" "x").2.1
     (by decide) rfl,
   (get_error_cases strCodec exTableAB1 "" "ab").2.2 "v" (by decide) rfl⟩

/-- C3 counterexample: with table entries `"ab"` and `"abc"`, the view at
`"ab"` lists two entries, though only one table entry (`"ab"` itself) lies in
the dotted subtree of `"ab"` — the scan is by raw string prefix, so the
sibling `"abc"` leaks in (yielded as `""` after the over-long strip). -/
theorem listKeysRecursive_sibling_cex :
    listKeysRecursive exTableAB "ab" false = ["", ""] ∧
    (exTableAB.filter (fun e => e.1 = "ab" || strStartsWith e.1 "ab.")).map
        (fun e => e.1) = ["ab"] := by
  constructor <;> decide

/-- C3 (amended): on a sorted table, `listKeysRecursive` yields, in table
(ascending full-key) order, one entry per table key having `selfPath` as a
*string* prefix (every key for the root view) that passes the defined filter:
the key itself for the root view, else `""` for the entry at `selfPath` and
the key with the first `|selfPath| + 1` characters dropped otherwise. -/
theorem listKeysRecursive_spec (t : PTree) (P : String) (w : Bool)
    (ht : t.Ordered) : listKeysRecursive t P w = subtreeKeys t P w :=
  lkr_eq_subtreeKeys t P w ht

/-- Witness for C3's amended statement on the concrete two-entry store. -/
theorem listKeysRecursive_spec_w :
    listKeysRecursive exTableAB "ab" true = subtreeKeys exTableAB "ab" true :=
  listKeysRecursive_spec exTableAB "ab" true (by decide)

/-- C8 counterexample: with a single table entry at `"ab"`, the view at `"ab"`
has the recursive listing `[""]`, whose first-segment collapse should contain
`""` once — but `listKeys` returns `[]`: the `prevKey` seed `""` swallows the
entry at the view itself. -/
theorem listKeys_drops_self_cex :
    listKeysRecursive exTableAB1 "ab" false = [""] ∧
    listKeys exTableAB1 "ab" false = [] := by
  constructor <;> decide

/-- C8 (amended): `listKeys` equals: map each recursive entry to its first
dotted segment, drop the leading run of empty segments (in particular the
entry at the view itself), then collapse consecutive duplicates.  Equal
segments separated by a non-equal one are NOT merged, and the leading empty
segments are silently lost. -/
theorem listKeys_spec (t : PTree) (P : String) (w : Bool) :
    listKeys t P w
      = collapseAdj (((listKeysRecursive t P w).map splitFirst).dropWhile
          (fun x => x == "")) := by
  rw [listKeys, dedupLoop_eq_collapseAdj]

/-- C4: reading a never-touched path lazily materializes a default undefined
record there: on a fresh store `getOptional "x"` returns empty and creates an
undefined record at `"x"`, which `listKeysRecursive` shows with
`withUndefined = true` and hides with `withUndefined = false`; in general any
`getOptional` on an absent joined path returns empty and materializes a
default record at it. -/
theorem getOptional_lazy_materialization {T : Type} (c : Codec T) :
    (getOptional c ([] : PTree) "" "x").1 = none ∧
    PTree.find? (getOptional c ([] : PTree) "" "x").2.2 "x" = some {} ∧
    listKeysRecursive (getOptional c ([] : PTree) "" "x").2.2 "" true = ["x"] ∧
    listKeysRecursive (getOptional c ([] : PTree) "" "x").2.2 "" false = [] ∧
    (∀ (t : PTree) (sp p : String), t.Ordered →
      PTree.find? t (joinPaths sp p) = none →
      (getOptional c t sp p).1 = none ∧
      PTree.find? (getOptional c t sp p).2.2 (joinPaths sp p) = some {}) := by
  have htree : (getOptional c ([] : PTree) "" "x").2.2 = [("x", ({} : Record))] := rfl
  refine ⟨rfl, rfl, ?_, ?_, ?_⟩
  · rw [htree]
    decide
  · rw [htree]
    decide
  intro t sp p ht h
  have hD : PTree.findD t (joinPaths sp p) = {} := by
    rw [PTree.findD, h]
    rfl
  constructor
  · simp [getOptional, hD, Record.get_as]
  · have h1 := find?_modifyRec_self ht (joinPaths sp p) id
    simp only [getOptional, PTree.touch, h1, hD]
    rfl

/-- Witness for C4 with the identity string codec, including a general
first-touch at the two-segment path `"a.b"`. -/
theorem getOptional_lazy_materialization_w :
    (getOptional strCodec ([] : PTree) "" "x").1 = none ∧
    listKeysRecursive (getOptional strCodec ([] : PTree) "" "x").2.2 "" true = ["x"] ∧
    listKeysRecursive (getOptional strCodec ([] : PTree) "" "x").2.2 "" false = [] ∧
    PTree.find? (getOptional strCodec ([] : PTree) "a" "b").2.2 (joinPaths "a" "b")
      = some {} :=
  ⟨(getOptional_lazy_materialization strCodec).1,
   (getOptional_lazy_materialization strCodec).2.2.1,
   (getOptional_lazy_materialization strCodec).2.2.2.1,
   ((getOptional_lazy_materialization strCodec).2.2.2.2 [] "a" "b" (by decide) rfl).2⟩

/-- C5: round trip — when the codec encodes `v` to some string that decodes
back to `v`, `set<T>(p, v)` followed by `get<T>(p)` on the same view of the
same store returns `v`. -/
theorem set_then_get_roundtrip {T : Type} (c : Codec T) (t : PTree)
    (sp p : String) (v : T) (s : String) (ht : t.Ordered)
    (he : c.encode v = some s) (hd : c.decode s = some v) :
    (get c (set c t sp p v) sp p).1 = Except.ok v := by
  have h1 := find?_modifyRec_self ht (joinPaths sp p) (fun r => r.set_as c v)
  rw [get]
  simp only [getOptional, set, PTree.findD, h1, Option.getD_some]
  simp [Record.set_as, Record.get_as, he, hd]

/-- Witness for C5 with the identity string codec. -/
theorem set_then_get_roundtrip_w :
    (get strCodec (set strCodec ([] : PTree) "" "k" "hi") "" "k").1
      = Except.ok "hi" :=
  set_then_get_roundtrip strCodec ([] : PTree) "" "k" "hi" "hi" (by decide) rfl rfl

/-- C6: `undefine` is a soft delete — after `set(p, v)` then `undefine(p)`,
`getOptional(p)` is empty, yet the record still exists at the joined path with
its string value and origin metadata unchanged, only the defined flag cleared,
and `p` still appears in `listKeysRecursive` with `withUndefined = true`. -/
theorem undefine_is_soft {T T' : Type} (c : Codec T) (c' : Codec T')
    (t : PTree) (sp p : String) (v : T) (ht : t.Ordered) :
    (getOptional c' (undefineAt (set c t sp p v) sp p) sp p).1 = none ∧
    PTree.find? (undefineAt (set c t sp p v) sp p) (joinPaths sp p)
      = some (Record.undefine (PTree.findD (set c t sp p v) (joinPaths sp p))) ∧
    (PTree.findD (undefineAt (set c t sp p v) sp p) (joinPaths sp p)).value
      = (PTree.findD (set c t sp p v) (joinPaths sp p)).value ∧
    (PTree.findD (undefineAt (set c t sp p v) sp p) (joinPaths sp p)).pathData
      = (PTree.findD (set c t sp p v) (joinPaths sp p)).pathData ∧
    (PTree.findD (undefineAt (set c t sp p v) sp p) (joinPaths sp p)).defined = false ∧
    p ∈ listKeysRecursive (undefineAt (set c t sp p v) sp p) sp true := by
  have ht1 : (set c t sp p v).Ordered :=
    Ordered.modifyRec ht (joinPaths sp p) (fun r => r.set_as c v)
  have h2 : PTree.find? (undefineAt (set c t sp p v) sp p) (joinPaths sp p)
      = some (Record.undefine (PTree.findD (set c t sp p v) (joinPaths sp p))) :=
    find?_modifyRec_self ht1 (joinPaths sp p) Record.undefine
  have hD : PTree.findD (undefineAt (set c t sp p v) sp p) (joinPaths sp p)
      = Record.undefine (PTree.findD (set c t sp p v) (joinPaths sp p)) := by
    rw [PTree.findD, h2]
    rfl
  refine ⟨?_, h2, ?_, ?_, ?_, ?_⟩
  · simp [getOptional, hD, Record.get_as, Record.undefine]
  · simp [hD, Record.undefine]
  · simp [hD, Record.undefine]
  · simp [hD, Record.undefine]
  · exact mem_listKeysRecursive_of_find?
      (Ordered.modifyRec ht1 (joinPaths sp p) Record.undefine) h2

/-- Witness for C6 at the view `"a"`, path `"b"`, value `"hello"`. -/
theorem undefine_is_soft_w :
    (getOptional strCodec
        (undefineAt (set strCodec ([] : PTree) "a" "b" "hello") "a" "b") "a" "b").1
      = none ∧
    (PTree.findD (undefineAt (set strCodec ([] : PTree) "a" "b" "hello") "a" "b")
        (joinPaths "a" "b")).value
      = (PTree.findD (set strCodec ([] : PTree) "a" "b" "hello")
          (joinPaths "a" "b")).value ∧
    "b" ∈ listKeysRecursive
        (undefineAt (set strCodec ([] : PTree) "a" "b" "hello") "a" "b") "a" true :=
  ⟨(undefine_is_soft strCodec strCodec ([] : PTree) "a" "b" "hello" (by decide)).1,
   (undefine_is_soft strCodec strCodec ([] : PTree) "a" "b" "hello" (by decide)).2.2.1,
   (undefine_is_soft strCodec strCodec ([] : PTree) "a" "b" "hello" (by decide)).2.2.2.2.2⟩

/-- C10: `undefine` on a never-touched path also materializes — it creates a
record at the joined path with `defined = false`, so the path subsequently
appears in `listKeysRecursive` with `withUndefined = true` even though no
value was ever set there. -/
theorem undefine_materializes (t : PTree) (sp p : String) (ht : t.Ordered)
    (h : PTree.find? t (joinPaths sp p) = none) :
    PTree.find? (undefineAt t sp p) (joinPaths sp p) = some ({} : Record) ∧
    (PTree.findD (undefineAt t sp p) (joinPaths sp p)).defined = false ∧
    p ∈ listKeysRecursive (undefineAt t sp p) sp true := by
  have hD : PTree.findD t (joinPaths sp p) = {} := by
    rw [PTree.findD, h]
    rfl
  have h2 : PTree.find? (undefineAt t sp p) (joinPaths sp p)
      = some (Record.undefine (PTree.findD t (joinPaths sp p))) :=
    find?_modifyRec_self ht (joinPaths sp p) Record.undefine
  rw [hD] at h2
  have h3 : Record.undefine {} = ({} : Record) := rfl
  rw [h3] at h2
  refine ⟨h2, ?_, ?_⟩
  · rw [PTree.findD, h2]
    rfl
  · exact mem_listKeysRecursive_of_find?
      (Ordered.modifyRec ht (joinPaths sp p) Record.undefine) h2

/-- Witness for C10 on a fresh store at the view `"a"`, path `"b"`. -/
theorem undefine_materializes_w :
    PTree.find? (undefineAt ([] : PTree) "a" "b") (joinPaths "a" "b")
      = some ({} : Record) ∧
    "b" ∈ listKeysRecursive (undefineAt ([] : PTree) "a" "b") "a" true :=
  ⟨(undefine_materializes ([] : PTree) "a" "b" (by decide) rfl).1,
   (undefine_materializes ([] : PTree) "a" "b" (by decide) rfl).2.2⟩

end Mxprops
